import Mathlib

/-!
# Verification of the RAG retrieval-and-orchestration pipeline

Shallow embedding of the core of the repository:

* `rag_system/data/document_processor.py` — `DocumentProcessor.clean_text`
  and `DocumentProcessor.chunk_text` (whitespace normalization and the
  sliding-window chunking loop, including Python slice semantics and the
  possibility of non-termination, which is made explicit with a fuel
  parameter);
* `rag_system/rag_pipeline.py` — `SimpleRetriever.search`,
  `SimpleRetriever.format_context`, `RAGSystem.build_index` and the
  tag-processing / source-attribution logic of `RAGSystem.query`;
* `rag_system/models/retriever.py` — `Retriever.search` (index-bound
  handling over the FAISS result, with Python negative indexing) and
  `Retriever.format_context`.

Text is modelled as `List Char`; Python integers as `Int` where they can
go negative (chunk positions, FAISS indices) and `Nat` elsewhere.
-/

/-- Python whitespace for `\s` / `str.split()` / `str.strip()` (ASCII part). -/
def isSpacePy (c : Char) : Bool :=
  c == ' ' || c == '\t' || c == '\n' || c == '\r' || c == '\x0b' || c == '\x0c'

/-- Model of `re.sub(r'\s+', ' ', text)`: collapse each maximal whitespace run to one space. -/
def collapseWS : List Char → List Char
  | [] => []
  | [c] => if isSpacePy c then [' '] else [c]
  | c1 :: c2 :: rest =>
    if isSpacePy c1 && isSpacePy c2 then collapseWS (c2 :: rest)
    else (if isSpacePy c1 then ' ' else c1) :: collapseWS (c2 :: rest)

/-- Python `str.strip()`: drop leading and trailing whitespace. -/
def stripWS (l : List Char) : List Char :=
  ((l.dropWhile isSpacePy).reverse.dropWhile isSpacePy).reverse

/-- Embedding of `DocumentProcessor.clean_text`: collapse whitespace runs, then strip. -/
def cleanText (text : List Char) : List Char :=
  stripWS (collapseWS text)

/-- A chunk record as built by `DocumentProcessor.chunk_text`
(the dict `{id, text, title, source_url, start_pos, end_pos}`). -/
structure Chunk where
  id : List Char
  text : List Char
  title : List Char
  source_url : List Char
  start_pos : Int
  end_pos : Int
deriving DecidableEq, Repr

/-- Python slice `l[a:b]` (step 1) for possibly negative `Int` bounds. -/
def pySlice (l : List Char) (a b : Int) : List Char :=
  let n : Int := l.length
  let a' : Int := if a < 0 then max (n + a) 0 else min a n
  let b' : Int := if b < 0 then max (n + b) 0 else min b n
  if a' < b' then (l.drop a'.toNat).take (b' - a').toNat else []

/-- One iteration of the `while start_pos < len(cleaned_text)` loop of
`DocumentProcessor.chunk_text`, with an explicit fuel bound: `none` means the
fuel ran out before the loop finished (the loop body is a straight
transliteration: `end_pos = min(start_pos + chunk_size, len)`, append the
chunk, `start_pos = end_pos - overlap`, `if start_pos >= len: break`). -/
def chunkLoop (csz ov : Int) (txt docId title url : List Char) :
    Nat → Int → Nat → List Chunk → Option (List Chunk)
  | 0, _, _, _ => none
  | fuel + 1, start, cid, acc =>
    if start < (txt.length : Int) then
      let endP : Int := min (start + csz) (txt.length : Int)
      let acc' := acc ++ [⟨docId ++ '_' :: Nat.toDigits 10 cid, pySlice txt start endP,
                          title, url, start, endP⟩]
      let start' := endP - ov
      if (txt.length : Int) ≤ start' then some acc'
      else chunkLoop csz ov txt docId title url fuel start' (cid + 1) acc'
    else some acc

/-- Embedding of `DocumentProcessor.chunk_text` under a fuel bound: clean the text, then run
the chunking loop from `start_pos = 0`, `chunk_id = 0` for at most `fuel`
iterations. -/
def chunkTextF (fuel : Nat) (csz ov : Int) (docId title url text : List Char) :
    Option (List Chunk) :=
  chunkLoop csz ov (cleanText text) docId title url fuel 0 0 []

/-- Embedding of `DocumentProcessor.chunk_text` with the canonical fuel `len + 1`, enough
iterations for any terminating run of the intended sliding-window loop
(each iteration either consumes fuel with `start` below `len` or stops). -/
def chunk_text (csz ov : Int) (docId title url text : List Char) :
    Option (List Chunk) :=
  chunkTextF ((cleanText text).length + 1) csz ov docId title url text

section ChunkLemmas

/-- Core divergence fact: with a positive `overlap`, once the loop is entered
with `start_pos < len(cleaned_text)`, it never finishes: the updated
`start_pos = min(start_pos + chunk_size, len) - overlap` stays `< len`, so the
`break` guard `start_pos >= len` can never fire and the `while` condition stays
true. -/
theorem chunkLoop_none (csz ov : Int) (txt d t u : List Char) (hov : 0 < ov) :
    ∀ (fuel : Nat) (start : Int) (cid : Nat) (acc : List Chunk),
      start < (txt.length : Int) →
      chunkLoop csz ov txt d t u fuel start cid acc = none := by
  intro fuel
  induction fuel with
  | zero => intro start cid acc _; rfl
  | succ n ih =>
    intro start cid acc h
    have hend : min (start + csz) (txt.length : Int) ≤ (txt.length : Int) :=
      min_le_right _ _
    simp only [chunkLoop]
    rw [if_pos h, if_neg (by omega)]
    exact ih _ _ _ (by omega)

end ChunkLemmas

theorem collapseWS_all_ws (l : List Char) (h : ∀ c ∈ l, isSpacePy c = true) :
    collapseWS l = [] ∨ collapseWS l = [' '] := by
  induction l with
  | nil => left; rfl
  | cons c rest ih =>
    cases rest with
    | nil => right; simp [collapseWS, h c (by simp)]
    | cons c2 rest2 =>
      have h1 : isSpacePy c = true := h c (by simp)
      have h2 : isSpacePy c2 = true := h c2 (by simp)
      rw [show collapseWS (c :: c2 :: rest2)
            = collapseWS (c2 :: rest2) by simp [collapseWS, h1, h2]]
      exact ih fun x hx => h x (by simp at hx ⊢; tauto)

/-- Applying `clean_text` to a whitespace-only (or empty) text is empty: the collapse
step leaves at most a single space and `strip` removes it. -/
theorem cleanText_all_ws (text : List Char) (h : ∀ c ∈ text, isSpacePy c = true) :
    cleanText text = [] := by
  unfold cleanText
  rcases collapseWS_all_ws text h with h0 | h0 <;> rw [h0] <;> rfl

/-- C1: the claim states that for every configuration with
`0 < overlap < chunk_size`, `DocumentProcessor.chunk_text` terminates and
returns a finite chunk sequence. The code does not: at the repository's
default configuration (`chunk_size = 500`, `overlap = 50`) on the input
`"hello world"`, the chunking loop exhausts every fuel bound — the update
`start_pos = end_pos - overlap` keeps `start_pos < len(cleaned_text)`
forever, so neither the `break` guard nor the `while` condition can stop it. -/
theorem C1_chunk_text_nonterminating :
    ∀ fuel : Nat, chunkTextF fuel 500 50 "doc1".toList "T".toList "u".toList
      "hello world".toList = none := by
  intro fuel
  unfold chunkTextF
  exact chunkLoop_none _ _ _ _ _ _ (by decide) fuel 0 0 [] (by decide)

/-- C2: the claimed positional invariants quantify over every text and every
configuration with `overlap < chunk_size`, but for `chunk_size = 3`,
`overlap = 1` on `"abcd"` the loop never returns a chunk sequence at all
(no fuel bound suffices), so no returned sequence satisfies them. -/
theorem C2_chunk_invariants_vacuous :
    ∀ fuel : Nat, chunkTextF fuel 3 1 "d".toList "t".toList "u".toList
      "abcd".toList = none := by
  intro fuel
  unfold chunkTextF
  exact chunkLoop_none _ _ _ _ _ _ (by decide) fuel 0 0 [] (by decide)

/-- C3: the claimed right-justified final window (`end_pos = L`, length exactly
`chunk_size`) is never produced: on `"abcdefgh"` with `chunk_size = 4`,
`overlap = 1` — a text long enough for multiple windows — the loop never
terminates, so `chunk_text` yields no chunk sequence for any fuel bound
(in particular the canonical-fuel run returns `none`). -/
theorem C3_no_right_justified_last_window :
    (∀ fuel : Nat, chunkTextF fuel 4 1 "d".toList "t".toList "u".toList
      "abcdefgh".toList = none)
    ∧ chunk_text 4 1 "d".toList "t".toList "u".toList "abcdefgh".toList = none := by
  constructor
  · intro fuel
    unfold chunkTextF
    exact chunkLoop_none _ _ _ _ _ _ (by decide) fuel 0 0 [] (by decide)
  · rfl

/-- C9: chunking an empty or whitespace-only string returns the empty chunk
sequence (not a single empty chunk): `clean_text` normalizes it to `""`, the
`while` condition `0 < 0` is false at once, and the empty accumulator is
returned — for any configuration and any positive fuel bound. -/
theorem C9_empty_text_empty_chunks (csz ov : Int) (d t u text : List Char)
    (h : ∀ c ∈ text, isSpacePy c = true) :
    ∀ fuel : Nat, 0 < fuel → chunkTextF fuel csz ov d t u text = some [] := by
  intro fuel hfuel
  obtain ⟨n, rfl⟩ : ∃ n, fuel = n + 1 := ⟨fuel - 1, by omega⟩
  unfold chunkTextF
  rw [cleanText_all_ws text h]
  simp [chunkLoop]

/-- Witness for C9 at the concrete whitespace-only input `" \t "` with the
default configuration and fuel 1. -/
theorem C9_empty_text_empty_chunks_witness :
    chunkTextF 1 500 50 "d".toList "t".toList "u".toList " \t ".toList = some [] :=
  C9_empty_text_empty_chunks 500 50 _ _ _ _ (by decide) 1 (by decide)

/-! ## Lexical fallback retriever (`SimpleRetriever` in `rag_pipeline.py`) -/

/-- Python `str.split()` accumulator: split on whitespace runs, no empty
tokens (`acc` holds the current token reversed). -/
def splitWSAux : List Char → List Char → List (List Char)
  | [], acc => if acc = [] then [] else [acc.reverse]
  | c :: rest, acc =>
    if isSpacePy c then
      (if acc = [] then splitWSAux rest [] else acc.reverse :: splitWSAux rest [])
    else splitWSAux rest (c :: acc)

/-- Model of `text.lower().split()`: the case-folded whitespace tokens of a text. -/
def tokensOf (s : List Char) : List (List Char) :=
  splitWSAux (s.map Char.toLower) []

/-- Model of `len(set(query_words) & set(text_words))`: the number of distinct shared
tokens between `query.lower().split()` and `text.lower().split()`. -/
def overlapScore (q ctext : List Char) : Nat :=
  (((tokensOf q).eraseDups).filter fun t => decide (t ∈ tokensOf ctext)).length

/-- The `results` list built by `SimpleRetriever.search` before sorting:
each chunk whose score is positive, paired with its score, in corpus order. -/
def scoredOf (q : List Char) (chunks : List Chunk) : List (Chunk × Nat) :=
  chunks.filterMap fun c =>
    let s := overlapScore q c.text
    if 0 < s then some (c, s) else none

/-- Stable insertion (by a `Nat` key, descending): `x` goes in front of the
first element whose key is `≤ key x`, i.e. after every strictly greater key
and before every equal or smaller one. -/
def insertDesc {α : Type} (key : α → Nat) (x : α) : List α → List α
  | [] => [x]
  | y :: ys => if key y ≤ key x then x :: y :: ys else y :: insertDesc key x ys

/-- Stable descending sort by a `Nat` key, modelling Python's stable
`list.sort(key=..., reverse=True)`: equal keys keep their original relative
order, larger keys come first. -/
def sortDesc {α : Type} (key : α → Nat) (l : List α) : List α :=
  l.foldr (insertDesc key) []

/-- Embedding of `SimpleRetriever.search`: score every chunk by token overlap, keep the
positive ones, stable-sort descending by score, return the first `k`. -/
def SimpleRetriever.search (q : List Char) (chunks : List Chunk) (k : Nat) :
    List (Chunk × Nat) :=
  (sortDesc (fun p => p.2) (scoredOf q chunks)).take k

/-- Ghost-indexed variant of `scoredOf` starting at corpus position `n`: the
same filtered, scored list, with each entry also carrying its original
position in the chunk sequence. -/
def scoredIdxFrom (q : List Char) (n : Nat) : List Chunk → List (Nat × Chunk × Nat)
  | [] => []
  | c :: cs =>
    let s := overlapScore q c.text
    if 0 < s then (n, c, s) :: scoredIdxFrom q (n + 1) cs
    else scoredIdxFrom q (n + 1) cs

/-- Ghost-indexed variant of `SimpleRetriever.search`, used to state the
tie-breaking (stability) guarantee: entries carry their original corpus
position. -/
def SimpleRetriever.searchIdx (q : List Char) (chunks : List Chunk) (k : Nat) :
    List (Nat × Chunk × Nat) :=
  (sortDesc (fun t => t.2.2) (scoredIdxFrom q 0 chunks)).take k

/-- The strict order "higher score first, ties by original position". -/
def stableOrd {α : Type} (key idx : α → Nat) (a b : α) : Prop :=
  key b < key a ∨ (key a = key b ∧ idx a < idx b)

theorem mem_insertDesc {α : Type} (key : α → Nat) (x z : α) (l : List α) :
    z ∈ insertDesc key x l ↔ z = x ∨ z ∈ l := by
  induction l with
  | nil => simp [insertDesc]
  | cons y ys ih =>
    by_cases h : key y ≤ key x
    · simp [insertDesc, h]
    · simp only [insertDesc, if_neg h, List.mem_cons, ih]
      tauto

theorem mem_sortDesc {α : Type} (key : α → Nat) (z : α) (l : List α) :
    z ∈ sortDesc key l ↔ z ∈ l := by
  induction l with
  | nil => simp [sortDesc]
  | cons y ys ih =>
    simp only [sortDesc, List.foldr_cons, List.mem_cons]
    rw [show List.foldr (insertDesc key) [] ys = sortDesc key ys from rfl] at *
    rw [mem_insertDesc, ih]

theorem insertDesc_pairwise_stable {α : Type} (key idx : α → Nat) (x : α)
    (l : List α) (hl : l.Pairwise (stableOrd key idx))
    (hx : ∀ y ∈ l, idx x < idx y) :
    (insertDesc key x l).Pairwise (stableOrd key idx) := by
  induction l with
  | nil => simp [insertDesc, List.pairwise_singleton]
  | cons y ys ih =>
    rcases List.pairwise_cons.mp hl with ⟨hy, hys⟩
    by_cases h : key y ≤ key x
    · rw [insertDesc, if_pos h]
      refine List.pairwise_cons.mpr ⟨?_, hl⟩
      intro z hz
      rcases List.mem_cons.mp hz with rfl | hz'
      · rcases Nat.lt_or_ge (key z) (key x) with hlt | hge
        · exact Or.inl hlt
        · exact Or.inr ⟨Nat.le_antisymm hge h, hx z (by simp)⟩
      · rcases hy z hz' with hlt | ⟨heq, _⟩
        · exact Or.inl (Nat.lt_of_lt_of_le hlt h)
        · rcases Nat.lt_or_ge (key z) (key x) with hlt | hge
          · exact Or.inl hlt
          · exact Or.inr ⟨Nat.le_antisymm hge (heq ▸ h), hx z (by simp [hz'])⟩
    · rw [insertDesc, if_neg h]
      refine List.pairwise_cons.mpr ⟨?_, ih hys fun y hy' => hx y (by simp [hy'])⟩
      intro z hz
      rcases (mem_insertDesc key x z ys).mp hz with rfl | hz'
      · exact Or.inl (Nat.lt_of_not_le h)
      · exact hy z hz'

theorem sortDesc_pairwise_stable {α : Type} (key idx : α → Nat) (l : List α)
    (hl : l.Pairwise fun a b => idx a < idx b) :
    (sortDesc key l).Pairwise (stableOrd key idx) := by
  induction l with
  | nil => simp [sortDesc]
  | cons a l ih =>
    rcases List.pairwise_cons.mp hl with ⟨ha, hl'⟩
    rw [show sortDesc key (a :: l) = insertDesc key a (sortDesc key l) from rfl]
    exact insertDesc_pairwise_stable key idx a _ (ih hl')
      fun y hy => ha y ((mem_sortDesc key y l).mp hy)

theorem insertDesc_map {α β : Type} (key : β → Nat) (keyI : α → Nat) (f : α → β)
    (hk : ∀ a, key (f a) = keyI a) (x : α) (l : List α) :
    insertDesc key (f x) (l.map f) = (insertDesc keyI x l).map f := by
  induction l with
  | nil => simp [insertDesc]
  | cons y ys ih =>
    by_cases h : keyI y ≤ keyI x
    · simp [insertDesc, hk, h]
    · simp [insertDesc, hk, h, ih]

theorem sortDesc_map {α β : Type} (key : β → Nat) (keyI : α → Nat) (f : α → β)
    (hk : ∀ a, key (f a) = keyI a) (l : List α) :
    sortDesc key (l.map f) = (sortDesc keyI l).map f := by
  induction l with
  | nil => rfl
  | cons a l ih =>
    show insertDesc key (f a) (sortDesc key (l.map f)) = _
    rw [ih, insertDesc_map key keyI f hk]
    rfl

theorem scoredIdxFrom_map (q : List Char) :
    ∀ (n : Nat) (chunks : List Chunk),
      (scoredIdxFrom q n chunks).map (fun t => (t.2.1, t.2.2)) = scoredOf q chunks := by
  intro n chunks
  induction chunks generalizing n with
  | nil => rfl
  | cons c cs ih =>
    by_cases h : 0 < overlapScore q c.text
    · simp only [scoredIdxFrom, scoredOf, List.filterMap_cons, if_pos h, List.map_cons]
      exact congrArg _ (ih (n + 1))
    · simp only [scoredIdxFrom, scoredOf, List.filterMap_cons, if_neg h]
      exact ih (n + 1)

theorem scoredIdxFrom_ge (q : List Char) :
    ∀ (n : Nat) (chunks : List Chunk) (x : Nat × Chunk × Nat),
      x ∈ scoredIdxFrom q n chunks → n ≤ x.1 := by
  intro n chunks
  induction chunks generalizing n with
  | nil => intro x hx; simp [scoredIdxFrom] at hx
  | cons c cs ih =>
    intro x hx
    by_cases h : 0 < overlapScore q c.text
    · rw [scoredIdxFrom, if_pos h] at hx
      rcases List.mem_cons.mp hx with rfl | hx'
      · exact Nat.le_refl n
      · exact Nat.le_of_succ_le (ih (n + 1) x hx')
    · rw [scoredIdxFrom, if_neg h] at hx
      exact Nat.le_of_succ_le (ih (n + 1) x hx)

theorem scoredIdxFrom_pairwise (q : List Char) :
    ∀ (n : Nat) (chunks : List Chunk),
      (scoredIdxFrom q n chunks).Pairwise fun a b => a.1 < b.1 := by
  intro n chunks
  induction chunks generalizing n with
  | nil => simp [scoredIdxFrom]
  | cons c cs ih =>
    by_cases h : 0 < overlapScore q c.text
    · rw [scoredIdxFrom, if_pos h]
      refine List.pairwise_cons.mpr ⟨?_, ih (n + 1)⟩
      intro y hy
      exact Nat.lt_of_succ_le (scoredIdxFrom_ge q (n + 1) cs y hy)
    · rw [scoredIdxFrom, if_neg h]
      exact ih (n + 1)

theorem mem_scoredOf (q : List Char) (chunks : List Chunk) (z : Chunk × Nat) :
    z ∈ scoredOf q chunks ↔ z.1 ∈ chunks ∧ z.2 = overlapScore q z.1.text ∧ 0 < z.2 := by
  unfold scoredOf
  rw [List.mem_filterMap]
  constructor
  · rintro ⟨c, hc, hz⟩
    simp only at hz
    by_cases h : 0 < overlapScore q c.text
    · rw [if_pos h] at hz
      cases hz
      exact ⟨hc, rfl, h⟩
    · rw [if_neg h] at hz
      cases hz
  · rintro ⟨hc, hs, hpos⟩
    exact ⟨z.1, hc, by simp only [if_pos (hs ▸ hpos)]; rw [← hs]⟩

/-- C5: contract of `SimpleRetriever.search` — at most `k` results; every
result is a corpus chunk carrying as `score` the count of shared
case-insensitive whitespace tokens with the query, and only positive scores
are kept (so a query sharing no token with any chunk returns `[]`); results
are ordered by descending score; and (via the ghost-indexed variant, of which
`search` is the projection) ties are broken by original chunk order. -/
theorem C5_lexical_search_contract (q : List Char) (chunks : List Chunk) (k : Nat) :
    (SimpleRetriever.search q chunks k).length ≤ k
    ∧ (∀ r ∈ SimpleRetriever.search q chunks k,
        0 < r.2 ∧ r.2 = overlapScore q r.1.text ∧ r.1 ∈ chunks)
    ∧ ((∀ c ∈ chunks, overlapScore q c.text = 0) →
        SimpleRetriever.search q chunks k = [])
    ∧ (SimpleRetriever.search q chunks k).Pairwise (fun a b => b.2 ≤ a.2)
    ∧ (SimpleRetriever.searchIdx q chunks k).Pairwise
        (stableOrd (fun t => t.2.2) (fun t => t.1))
    ∧ SimpleRetriever.search q chunks k
        = (SimpleRetriever.searchIdx q chunks k).map fun t => (t.2.1, t.2.2) := by
  have hproj : SimpleRetriever.search q chunks k
      = (SimpleRetriever.searchIdx q chunks k).map (fun t => (t.2.1, t.2.2)) := by
    unfold SimpleRetriever.search SimpleRetriever.searchIdx
    rw [← scoredIdxFrom_map q 0 chunks,
        sortDesc_map (α := Nat × Chunk × Nat) (β := Chunk × Nat)
          (fun p => p.2) (fun t => t.2.2) (fun t => (t.2.1, t.2.2)) (fun a => rfl),
        List.map_take]
  have hstable : (SimpleRetriever.searchIdx q chunks k).Pairwise
      (stableOrd (fun t => t.2.2) (fun t => t.1)) :=
    List.Pairwise.sublist (List.take_sublist _ _)
      (sortDesc_pairwise_stable _ _ _ (scoredIdxFrom_pairwise q 0 chunks))
  refine ⟨List.length_take_le _ _, ?_, ?_, ?_, hstable, hproj⟩
  · intro r hr
    have h1 : r ∈ sortDesc (fun p => p.2) (scoredOf q chunks) :=
      List.mem_of_mem_take hr
    have h2 : r ∈ scoredOf q chunks := (mem_sortDesc _ _ _).mp h1
    rcases (mem_scoredOf q chunks r).mp h2 with ⟨hmem, hs, hpos⟩
    exact ⟨hpos, hs, hmem⟩
  · intro hall
    have h0 : scoredOf q chunks = [] := by
      unfold scoredOf
      rw [List.filterMap_eq_nil_iff]
      intro c hc
      simp [hall c hc]
    unfold SimpleRetriever.search
    rw [h0]
    simp [sortDesc]
  · rw [hproj, List.pairwise_map]
    exact hstable.imp fun h => by
      rcases h with hlt | ⟨heq, _⟩
      · exact Nat.le_of_lt hlt
      · exact Nat.le_of_eq heq.symm

/-- A concrete corpus chunk used by witnesses. -/
def sampleChunkA : Chunk :=
  ⟨"a_0".toList, "Gandhi led the Salt March in 1930.".toList,
   "Salt March".toList, "https://example.com/a".toList, 0, 34⟩

/-- Witness for C5 at a concrete input: the query `"xyz-nonexistent-token"`
shares no token with the one-chunk corpus, so `search` returns the empty
sequence. -/
theorem C5_lexical_search_contract_witness :
    SimpleRetriever.search "xyz-nonexistent-token".toList [sampleChunkA] 5 = [] :=
  (C5_lexical_search_contract "xyz-nonexistent-token".toList [sampleChunkA] 5).2.2.1
    (by decide)

/-! ## Vector retriever (`Retriever` in `models/retriever.py`) -/

/-- Python `metadata[idx]` for an `Int` index: non-negative indices address
from the front, negative indices from the end; `none` models the
`IndexError` raised when the index is out of range on both sides. -/
def pyGet (meta : List Chunk) (i : Int) : Option Chunk :=
  if 0 ≤ i then meta.get? i.toNat
  else if 0 ≤ (meta.length : Int) + i then meta.get? ((meta.length : Int) + i).toNat
  else none

/-- The result loop of `Retriever.search` over the FAISS `(distance, idx)`
pairs: a pair whose `idx` fails the guard `idx < len(self.chunks_metadata)` is
skipped; otherwise `self.chunks_metadata[idx]` is read with Python indexing
(an `IndexError` aborts the whole call, modelled as `.error ()`), and the
chunk copy annotated with the distance is appended. Distances are carried
opaquely as `Int` — the claim under check concerns only index handling. -/
def Retriever.search (pairs : List (Int × Int)) (meta : List Chunk) :
    Except Unit (List (Chunk × Int)) :=
  match pairs with
  | [] => .ok []
  | (i, d) :: rest =>
    if i < (meta.length : Int) then
      match pyGet meta i with
      | some c =>
        match Retriever.search rest meta with
        | .ok res => .ok ((c, d) :: res)
        | .error e => .error e
      | none => .error ()
    else Retriever.search rest meta

/-- Embedding of `Retriever.format_context`: blocks `"[{title} | {source_url}] {text}"`
joined by `"\n\n---\n\n"`. -/
def Retriever.format_context (passages : List Chunk) : List Char :=
  List.intercalate "\n\n---\n\n".toList
    (passages.map fun p =>
      '[' :: (p.title ++ " | ".toList ++ p.source_url ++ "] ".toList ++ p.text))

/-- Embedding of `SimpleRetriever.format_context`: `"Document: {title}\nContent: {text}"`
blocks joined by `"\n\n"`, with a fixed fallback string for no passages. -/
def SimpleRetriever.format_context (passages : List Chunk) : List Char :=
  if passages = [] then "No relevant information found.".toList
  else
    List.intercalate "\n\n".toList
      (passages.map fun p =>
        "Document: ".toList ++ p.title ++ "\nContent: ".toList ++ p.text)

/-- A second concrete corpus chunk used by witnesses and counterexamples. -/
def sampleChunkB : Chunk :=
  ⟨"b_0".toList, "The Salt Act taxed salt production.".toList,
   "Salt Act".toList, "https://example.com/b".toList, 0, 35⟩

/-- If Python indexing succeeds on `meta`, the value read is an entry of
`meta` at a valid position. -/
theorem pyGet_some (meta : List Chunk) (i : Int) (c : Chunk)
    (h : pyGet meta i = some c) : ∃ j : Fin meta.length, c = meta.get j := by
  unfold pyGet at h
  by_cases h0 : 0 ≤ i
  · rw [if_pos h0] at h
    rcases List.get?_eq_some.mp h with ⟨hlt, hget⟩
    exact ⟨⟨i.toNat, hlt⟩, hget.symm⟩
  · rw [if_neg h0] at h
    by_cases h1 : 0 ≤ (meta.length : Int) + i
    · rw [if_pos h1] at h
      rcases List.get?_eq_some.mp h with ⟨hlt, hget⟩
      exact ⟨⟨((meta.length : Int) + i).toNat, hlt⟩, hget.symm⟩
    · rw [if_neg h1] at h
      cases h

/-- Counterexample to C6: the FAISS padding index `-1` is *not* dropped by the
guard `idx < len(metadata)` — on a two-chunk metadata array it resolves, via
Python negative indexing, to the *last* entry instead of being skipped. -/
theorem C6_counterexample_negative_index_not_dropped :
    Retriever.search [(-1, 7)] [sampleChunkA, sampleChunkB]
        = .ok [(sampleChunkB, 7)]
    ∧ [(sampleChunkB, (7 : Int))] ≠ ([] : List (Chunk × Int)) :=
  ⟨rfl, by decide⟩

/-- C6 (amended): indices `≥ len(metadata)` are dropped; a successful search
only ever returns copies of metadata entries at valid positions; but negative
indices are not dropped — `i < -len` raises `IndexError` (the call aborts),
and `-len ≤ i < 0` resolves to the entry at position `len + i`. -/
theorem C6_amended_index_handling (pairs : List (Int × Int)) (meta : List Chunk) :
    ((∀ p ∈ pairs, (meta.length : Int) ≤ p.1) → Retriever.search pairs meta = .ok [])
    ∧ (∀ res, Retriever.search pairs meta = .ok res →
        ∀ r ∈ res, ∃ j : Fin meta.length, r.1 = meta.get j)
    ∧ (∀ i d : Int, i < -(meta.length : Int) →
        Retriever.search ((i, d) :: pairs) meta = .error ())
    ∧ (∀ i : Int, -(meta.length : Int) ≤ i → i < 0 →
        ∃ j : Fin meta.length, pyGet meta i = some (meta.get j)
          ∧ (j : Int) = (meta.length : Int) + i) := by
  refine ⟨?_, ?_, ?_, ?_⟩
  · intro hall
    induction pairs with
    | nil => rfl
    | cons p rest ih =>
      obtain ⟨i, d⟩ := p
      rw [Retriever.search, if_neg (by have := hall (i, d) (by simp); omega)]
      exact ih fun x hx => hall x (by simp [hx])
  · induction pairs with
    | nil =>
      intro res hres r hr
      rw [Retriever.search] at hres
      cases hres
      cases hr
    | cons p rest ih =>
      obtain ⟨i, d⟩ := p
      intro res hres r hr
      rw [Retriever.search] at hres
      by_cases hi : i < (meta.length : Int)
      · rw [if_pos hi] at hres
        rcases hpg : pyGet meta i with _ | c
        · rw [hpg] at hres; cases hres
        · rw [hpg] at hres
          rcases hrec : Retriever.search rest meta with e | res'
          · rw [hrec] at hres; cases hres
          · rw [hrec] at hres
            cases hres
            rcases List.mem_cons.mp hr with rfl | hr'
            · exact pyGet_some meta i c hpg
            · exact ih res' hrec r hr'
      · rw [if_neg hi] at hres
        exact ih res hres r hr
  · intro i d hneg
    rw [Retriever.search, if_pos (by omega)]
    have h0 : ¬ 0 ≤ i := by omega
    have h1 : ¬ 0 ≤ (meta.length : Int) + i := by omega
    rw [show pyGet meta i = none by unfold pyGet; rw [if_neg h0, if_neg h1]]
  · intro i hge hlt
    have h0 : ¬ 0 ≤ i := by omega
    have h1 : 0 ≤ (meta.length : Int) + i := by omega
    have hltn : ((meta.length : Int) + i).toNat < meta.length := by omega
    refine ⟨⟨((meta.length : Int) + i).toNat, hltn⟩, ?_, by simp; omega⟩
    unfold pyGet
    rw [if_neg h0, if_pos h1]
    exact List.get?_eq_get hltn

/-- Witness for C6 (amended) at a concrete input: the stale index 2 on a
one-entry metadata array is dropped, yielding an empty result. -/
theorem C6_amended_index_handling_witness :
    Retriever.search [(2, 1)] [sampleChunkA] = .ok [] :=
  (C6_amended_index_handling [(2, 1)] [sampleChunkA]).1 (by decide)

theorem intercalate_cons_head (sep x : List Char) (xs : List (List Char)) :
    ∃ t, List.intercalate sep (x :: xs) = x ++ t := by
  cases xs with
  | nil => exact ⟨[], by simp [List.intercalate]⟩
  | cons y ys =>
    exact ⟨sep ++ List.intercalate sep (y :: ys), by simp [List.intercalate]⟩

/-- Counterexample to C7: on a concrete one-passage list the lexical
fallback's `format_context` and the vector retriever's `format_context`
produce different strings (`"Document: {title}\nContent: {text}"` joined by
`"\n\n"` versus `"[{title} | {source_url}] {text}"` joined by
`"\n\n---\n\n"`). -/
theorem C7_counterexample_formatters_not_equal :
    Retriever.format_context [sampleChunkA]
      ≠ SimpleRetriever.format_context [sampleChunkA] := by decide

/-- C7 (amended): the two `format_context` implementations are *not*
observationally equal — on every non-empty ranked list their outputs differ
(the vector one opens each block with `'['`, the lexical one with
`"Document: "`, so the first characters already disagree). -/
theorem C7_amended_formatters_differ (ps : List Chunk) (h : ps ≠ []) :
    Retriever.format_context ps ≠ SimpleRetriever.format_context ps := by
  obtain ⟨p, rest, rfl⟩ := List.exists_cons_of_ne_nil h
  intro heq
  obtain ⟨tv, hv⟩ : ∃ t, Retriever.format_context (p :: rest) = '[' :: t := by
    unfold Retriever.format_context
    rw [List.map_cons]
    obtain ⟨t, ht⟩ := intercalate_cons_head "\n\n---\n\n".toList _ _
    exact ⟨_, by rw [ht]; rfl⟩
  obtain ⟨ts, hs⟩ : ∃ t, SimpleRetriever.format_context (p :: rest) = 'D' :: t := by
    unfold SimpleRetriever.format_context
    rw [if_neg (by simp), List.map_cons]
    obtain ⟨t, ht⟩ := intercalate_cons_head "\n\n".toList _ _
    exact ⟨_, by rw [ht]; rfl⟩
  rw [hv, hs] at heq
  injection heq with h1 _
  exact absurd h1 (by decide)

/-- Witness for C7 (amended) at a concrete non-empty passage list. -/
theorem C7_amended_formatters_differ_witness :
    Retriever.format_context [sampleChunkB]
      ≠ SimpleRetriever.format_context [sampleChunkB] :=
  C7_amended_formatters_differ [sampleChunkB] (by decide)

/-! ## Pipeline orchestrator (`RAGSystem` in `rag_pipeline.py`) -/

/-- Embedding of `RAGSystem.build_index`: the persisted chunk sequence is modelled as
`Option (List Chunk)` (`none` = `chunks.jsonl` absent). The operation raises
`FileNotFoundError` when the file is missing, and otherwise only prints a
confirmation — the persisted state is returned unchanged. -/
def RAGSystem.build_index (chunksFile : Option (List Chunk)) :
    Except Unit (Option (List Chunk)) :=
  match chunksFile with
  | none => .error ()
  | some s => .ok (some s)

/-- C8: `build_index` fails with `NotFound` exactly when the persisted chunk
sequence is absent; when it exists the call succeeds as a no-op confirmation,
leaving the persisted chunk sequence unchanged. -/
theorem C8_build_index_notfound_iff (st : Option (List Chunk)) :
    (RAGSystem.build_index st = .error () ↔ st = none)
    ∧ (∀ st', RAGSystem.build_index st = .ok st' → st' = st) := by
  cases st with
  | none =>
    refine ⟨?_, ?_⟩
    · constructor
      · intro _; rfl
      · intro _; rfl
    · intro st' h
      cases h
  | some s =>
    refine ⟨?_, ?_⟩
    · constructor
      · intro h; cases h
      · intro h; cases h
    · intro st' h
      cases h
      rfl

/-- Witness for C8: with no persisted chunk sequence, `build_index` raises. -/
theorem C8_build_index_notfound_iff_witness :
    RAGSystem.build_index none = .error () :=
  (C8_build_index_notfound_iff none).1.mpr rfl

/-- The control tag `[GENERAL_KNOWLEDGE]` recognized by `RAGSystem.query`. -/
def GTAG : List Char := "[GENERAL_KNOWLEDGE]".toList

/-- The control tag `[USED_CONTEXT]` recognized by `RAGSystem.query`. -/
def UTAG : List Char := "[USED_CONTEXT]".toList

/-- The scan of Python `s.replace(old, "")` with an explicit fuel (one unit
per examined character): remove each non-overlapping, leftmost-first
occurrence of `p`. Structural in the fuel so the kernel can evaluate it. -/
def removeAllGo (p : List Char) : Nat → List Char → List Char
  | 0, s => s
  | _ + 1, [] => []
  | fuel + 1, c :: rest =>
    if p ≠ [] ∧ p <+: (c :: rest) then removeAllGo p fuel ((c :: rest).drop p.length)
    else c :: removeAllGo p fuel rest

/-- Python `s.replace(old, "")` for a non-empty `old`: the scan needs at most
one fuel unit per character of `s`. -/
def removeAll (p s : List Char) : List Char :=
  removeAllGo p s.length s

theorem removeAllGo_congr (p : List Char) :
    ∀ (fuel : Nat) (s : List Char), s.length ≤ fuel →
      removeAllGo p fuel s = removeAll p s := by
  intro fuel
  induction fuel using Nat.strong_induction_on with
  | _ n ih =>
    intro s hs
    match n, s with
    | 0, s =>
      rw [List.length_eq_zero.mp (Nat.le_zero.mp hs)]
      rfl
    | m + 1, [] => rfl
    | m + 1, c :: rest =>
      have hrm : rest.length ≤ m := by simp only [List.length_cons] at hs; omega
      by_cases h : p ≠ [] ∧ p <+: (c :: rest)
      · have hlen : 1 ≤ p.length := by
          cases p with
          | nil => exact absurd rfl h.1
          | cons a b => simp
        have hd : ((c :: rest).drop p.length).length ≤ rest.length := by
          simp only [List.length_drop, List.length_cons]
          omega
        rw [show removeAllGo p (m + 1) (c :: rest)
              = removeAllGo p m ((c :: rest).drop p.length) by
            rw [removeAllGo, if_pos h],
          show removeAll p (c :: rest)
              = removeAllGo p (rest.length + 1) (c :: rest) from rfl,
          show removeAllGo p (rest.length + 1) (c :: rest)
              = removeAllGo p rest.length ((c :: rest).drop p.length) by
            rw [removeAllGo, if_pos h]]
        rw [ih m (Nat.lt_succ_self m) _ (Nat.le_trans hd hrm),
          ih rest.length (Nat.lt_succ_of_le hrm) _ hd]
      · rw [show removeAllGo p (m + 1) (c :: rest)
              = c :: removeAllGo p m rest by rw [removeAllGo, if_neg h],
          show removeAll p (c :: rest)
              = removeAllGo p (rest.length + 1) (c :: rest) from rfl,
          show removeAllGo p (rest.length + 1) (c :: rest)
              = c :: removeAllGo p rest.length rest by rw [removeAllGo, if_neg h]]
        rw [ih m (Nat.lt_succ_self m) _ hrm,
          ih rest.length (Nat.lt_succ_of_le hrm) _ (Nat.le_refl _)]

theorem removeAll_cons_hit (p : List Char) (c : Char) (rest : List Char)
    (hp : p ≠ []) (hpre : p <+: (c :: rest)) :
    removeAll p (c :: rest) = removeAll p ((c :: rest).drop p.length) := by
  have hlen : 1 ≤ p.length := by
    cases p with
    | nil => exact absurd rfl hp
    | cons a b => simp
  rw [show removeAll p (c :: rest)
        = removeAllGo p (rest.length + 1) (c :: rest) from rfl,
    show removeAllGo p (rest.length + 1) (c :: rest)
        = removeAllGo p rest.length ((c :: rest).drop p.length) by
      rw [removeAllGo, if_pos ⟨hp, hpre⟩]]
  exact removeAllGo_congr p rest.length _ (by simp only [List.length_drop, List.length_cons]; omega)

theorem removeAll_cons_miss (p : List Char) (c : Char) (rest : List Char)
    (h : ¬ p <+: (c :: rest)) :
    removeAll p (c :: rest) = c :: removeAll p rest := by
  rw [show removeAll p (c :: rest)
        = removeAllGo p (rest.length + 1) (c :: rest) from rfl,
    show removeAllGo p (rest.length + 1) (c :: rest)
        = c :: removeAllGo p rest.length rest by
      rw [removeAllGo, if_neg fun hc => h hc.2]]
  rw [removeAllGo_congr p rest.length rest (Nat.le_refl _)]

/-- A `sources` entry `{title, source_url, score}` of a query response. -/
structure SourceEntry where
  title : List Char
  source_url : List Char
  score : Nat
deriving DecidableEq, Repr

/-- The response dict of `RAGSystem.query`:
`{question, answer, sources, used_passages}`. -/
structure QueryResponse where
  question : List Char
  answer : List Char
  sources : List SourceEntry
  used_passages : List (Chunk × Nat)
deriving DecidableEq, Repr

/-- The `sources` list built from retrieved passages: one
`{title, source_url, score}` entry per passage, in order. -/
def sourcesOf (passages : List (Chunk × Nat)) : List SourceEntry :=
  passages.map fun p => ⟨p.1.title, p.1.source_url, p.2⟩

/-- The tag-processing and source-attribution tail of `RAGSystem.query`
(after generation): if the answer contains `[GENERAL_KNOWLEDGE]`, that tag is
removed, the result stripped, and `sources` is forced empty; `elif` it
contains `[USED_CONTEXT]`, that tag is removed and the result stripped;
`sources` is populated from the passages whenever general knowledge was not
flagged; `used_passages` always carries the full retrieval result. -/
def RAGSystem.queryRespond (question answer : List Char)
    (passages : List (Chunk × Nat)) : QueryResponse :=
  if GTAG <:+: answer then
    ⟨question, stripWS (removeAll GTAG answer), [], passages⟩
  else if UTAG <:+: answer then
    ⟨question, stripWS (removeAll UTAG answer), sourcesOf passages, passages⟩
  else
    ⟨question, answer, sourcesOf passages, passages⟩

/-- Counterexample to C4: when the generated answer contains *both* control
tags, the `elif` never runs: `[USED_CONTEXT]` is not stripped from the answer
and `sources` is empty rather than mirroring the retrieved passages, so the
claim's unconditional `[USED_CONTEXT]` clause is false. -/
theorem C4_counterexample_both_tags :
    UTAG <:+: "[GENERAL_KNOWLEDGE][USED_CONTEXT] fine".toList
    ∧ (RAGSystem.queryRespond "q".toList
        "[GENERAL_KNOWLEDGE][USED_CONTEXT] fine".toList
        [(sampleChunkA, 2)]).sources ≠ sourcesOf [(sampleChunkA, 2)]
    ∧ UTAG <:+: (RAGSystem.queryRespond "q".toList
        "[GENERAL_KNOWLEDGE][USED_CONTEXT] fine".toList
        [(sampleChunkA, 2)]).answer := by
  refine ⟨by decide, by decide, by decide⟩

/-- C4 (amended): the source-attribution policy with the `elif` made explicit
— if the answer contains `[GENERAL_KNOWLEDGE]`, that tag is removed (and
whitespace stripped) and `sources` is forced empty; if it contains
`[USED_CONTEXT]` *but not* `[GENERAL_KNOWLEDGE]`, that tag is removed and
`sources` carries one `{title, source_url, score}` entry per retrieved
passage in order; with neither tag the answer is unchanged and `sources` is
populated the same way; `used_passages` always carries the full retrieval
result. -/
theorem C4_amended_source_attribution (question answer : List Char)
    (passages : List (Chunk × Nat)) :
    (GTAG <:+: answer →
      (RAGSystem.queryRespond question answer passages).sources = []
      ∧ (RAGSystem.queryRespond question answer passages).answer
          = stripWS (removeAll GTAG answer))
    ∧ (¬ GTAG <:+: answer → UTAG <:+: answer →
      (RAGSystem.queryRespond question answer passages).sources = sourcesOf passages
      ∧ (RAGSystem.queryRespond question answer passages).answer
          = stripWS (removeAll UTAG answer))
    ∧ (¬ GTAG <:+: answer → ¬ UTAG <:+: answer →
      (RAGSystem.queryRespond question answer passages).sources = sourcesOf passages
      ∧ (RAGSystem.queryRespond question answer passages).answer = answer)
    ∧ (RAGSystem.queryRespond question answer passages).used_passages = passages := by
  unfold RAGSystem.queryRespond
  by_cases hg : GTAG <:+: answer
  · simp [hg]
  · by_cases hu : UTAG <:+: answer <;> simp [hg, hu]

/-- Witness for C4 (amended) at a concrete `[USED_CONTEXT]`-only answer:
`sources` mirrors the single retrieved passage. -/
theorem C4_amended_source_attribution_witness :
    (RAGSystem.queryRespond "q".toList "[USED_CONTEXT] fine".toList
      [(sampleChunkB, 3)]).sources = sourcesOf [(sampleChunkB, 3)] :=
  ((C4_amended_source_attribution "q".toList "[USED_CONTEXT] fine".toList
      [(sampleChunkB, 3)]).2.1 (by decide) (by decide)).1

theorem removeAll_append_no_hit (p b : List Char) :
    ∀ q : List Char, (∀ j, j < q.length → ¬ p <+: ((q ++ b).drop j)) →
      removeAll p (q ++ b) = q ++ removeAll p b := by
  intro q
  induction q with
  | nil => intro _; rfl
  | cons c q' ih =>
    intro hno
    have h0 : ¬ p <+: (c :: (q' ++ b)) := by
      have h' := hno 0 (by simp)
      simpa using h'
    have hih := ih fun j hj => by
      have h' := hno (j + 1) (by simp only [List.length_cons]; omega)
      simpa using h'
    rw [show (c :: q') ++ b = c :: (q' ++ b) from rfl,
      removeAll_cons_miss p c (q' ++ b) h0, hih]
    rfl

/-- If no occurrence of the pattern `p` can overlap an occurrence of `q`
(hypotheses `h1`/`h2`: no suffix of one is comparable, prefix-wise, with the
other), then removing every occurrence of `p` preserves any occurrence
of `q`. -/
theorem removeAll_keeps (p q : List Char) (hp : p ≠ []) (hq : q ≠ [])
    (h1 : ∀ j, j < p.length → ¬ (q <+: p.drop j) ∧ ¬ (p.drop j <+: q))
    (h2 : ∀ j, j < q.length → ¬ (p <+: q.drop j) ∧ ¬ (q.drop j <+: p)) :
    ∀ s, q <:+: s → q <:+: removeAll p s := by
  have hplen : 1 ≤ p.length := by
    cases p with
    | nil => exact absurd rfl hp
    | cons _ _ => simp
  have main : ∀ (n : Nat) (s : List Char), s.length ≤ n →
      q <:+: s → q <:+: removeAll p s := by
    intro n
    induction n with
    | zero =>
      intro s hs hqs
      rw [List.length_eq_zero.mp (Nat.le_zero.mp hs)] at hqs ⊢
      exact absurd (List.infix_nil.mp hqs) hq
    | succ n ih =>
      intro s hs hqs
      obtain ⟨a, b, hab⟩ := hqs
      subst hab
      by_cases hpre : p <+: (a ++ q ++ b)
      · by_cases hal : p.length ≤ a.length
        · obtain ⟨c, rest, hcr⟩ : ∃ c rest, a ++ q ++ b = c :: rest := by
            cases hx : a ++ q ++ b with
            | nil =>
              rcases List.append_eq_nil.mp hx with ⟨hx1, _⟩
              rcases List.append_eq_nil.mp hx1 with ⟨_, hx2⟩
              exact absurd hx2 hq
            | cons c rest => exact ⟨c, rest, rfl⟩
          have hdrop : (a ++ q ++ b).drop p.length = (a.drop p.length ++ q) ++ b := by
            rw [List.append_assoc, List.drop_append_of_le_length hal,
              ← List.append_assoc]
          have hrw : removeAll p (a ++ q ++ b)
              = removeAll p ((a ++ q ++ b).drop p.length) := by
            rw [hcr] at hpre ⊢
            exact removeAll_cons_hit p c rest hp hpre
          rw [hrw, hdrop]
          exact ih _
            (by
              simp only [List.length_append, List.length_drop] at hs ⊢
              omega)
            ⟨a.drop p.length, b, rfl⟩
        · exfalso
          push_neg at hal
          obtain ⟨t, ht⟩ := hpre
          have e1 : (a ++ q ++ b).drop a.length = q ++ b := by
            rw [List.append_assoc]
            exact List.drop_left a (q ++ b)
          have e2 : (a ++ q ++ b).drop a.length = p.drop a.length ++ t := by
            rw [← ht, List.drop_append_of_le_length (Nat.le_of_lt hal)]
          have e3 : q ++ b = p.drop a.length ++ t := by rw [← e1, e2]
          have hor := List.prefix_or_prefix_of_prefix
            (⟨b, rfl⟩ : q <+: q ++ b) (⟨t, e3.symm⟩ : p.drop a.length <+: q ++ b)
          rcases h1 a.length hal with ⟨hn1, hn2⟩
          rcases hor with h' | h'
          · exact hn1 h'
          · exact hn2 h'
      · cases a with
        | nil =>
          have hno : ∀ j, j < q.length → ¬ p <+: ((q ++ b).drop j) := by
            intro j hj hpj
            rw [List.drop_append_of_le_length (Nat.le_of_lt hj)] at hpj
            have hor := List.prefix_or_prefix_of_prefix hpj
              (⟨b, rfl⟩ : q.drop j <+: q.drop j ++ b)
            rcases h2 j hj with ⟨hn1, hn2⟩
            rcases hor with h' | h'
            · exact hn1 h'
            · exact hn2 h'
          rw [show ([] : List Char) ++ q ++ b = q ++ b from by simp,
            removeAll_append_no_hit p b q hno]
          exact ⟨[], removeAll p b, by simp⟩
        | cons c a' =>
          rw [show (c :: a') ++ q ++ b = c :: (a' ++ q ++ b) from rfl] at hpre ⊢
          rw [removeAll_cons_miss p c _ hpre]
          exact List.infix_cons (ih (a' ++ q ++ b)
            (by
              simp only [List.length_append, List.length_cons] at hs ⊢
              omega)
            ⟨a', b, rfl⟩)
  intro s
  exact main s.length s (Nat.le_refl _)

theorem dropWhile_keeps (q : List Char) (c0 : Char) (t0 : List Char)
    (hq : q = c0 :: t0) (hc : isSpacePy c0 = false) :
    ∀ s, q <:+: s → q <:+: s.dropWhile isSpacePy := by
  intro s
  induction s with
  | nil => intro h; simpa using h
  | cons c rest ih =>
    intro h
    by_cases hws : isSpacePy c
    · rw [List.dropWhile_cons, if_pos hws]
      apply ih
      rcases List.infix_cons_iff.mp h with hpre | hinf
      · exfalso
        rw [hq] at hpre
        rcases List.cons_prefix_cons.mp hpre with ⟨rfl, _⟩
        rw [hws] at hc
        cases hc
      · exact hinf
    · rw [List.dropWhile_cons, if_neg hws]
      exact h

theorem stripWS_keeps (q : List Char)
    (hhead : ∃ c t, q = c :: t ∧ isSpacePy c = false)
    (hlast : ∃ c t, q.reverse = c :: t ∧ isSpacePy c = false) :
    ∀ s, q <:+: s → q <:+: stripWS s := by
  intro s hs
  obtain ⟨c0, t0, hq0, hc0⟩ := hhead
  obtain ⟨c1, t1, hq1, hc1⟩ := hlast
  have st1 : q <:+: s.dropWhile isSpacePy := dropWhile_keeps q c0 t0 hq0 hc0 s hs
  have st2 : q.reverse <:+: (s.dropWhile isSpacePy).reverse :=
    List.reverse_infix.mpr st1
  have st3 : q.reverse <:+: ((s.dropWhile isSpacePy).reverse).dropWhile isSpacePy :=
    dropWhile_keeps q.reverse c1 t1 hq1 hc1 _ st2
  have st4 := List.reverse_infix.mpr st3
  simpa [stripWS] using st4

/-- C10: when the generated answer contains both control tags,
`[GENERAL_KNOWLEDGE]` takes precedence (the `elif` branch is skipped):
`sources` is forced empty, only the `[GENERAL_KNOWLEDGE]` literal is removed
(followed by whitespace stripping), and the `[USED_CONTEXT]` literal is still
present in the returned answer — removing `[GENERAL_KNOWLEDGE]` occurrences
cannot destroy a `[USED_CONTEXT]` occurrence because no suffix of either tag
is a prefix of the other, and stripping removes only edge whitespace while
the tag starts with `'['` and ends with `']'`. -/
theorem C10_general_knowledge_precedence (question answer : List Char)
    (passages : List (Chunk × Nat)) (hg : GTAG <:+: answer)
    (hu : UTAG <:+: answer) :
    (RAGSystem.queryRespond question answer passages).sources = []
    ∧ (RAGSystem.queryRespond question answer passages).answer
        = stripWS (removeAll GTAG answer)
    ∧ UTAG <:+: (RAGSystem.queryRespond question answer passages).answer := by
  have hresp : RAGSystem.queryRespond question answer passages
      = ⟨question, stripWS (removeAll GTAG answer), [], passages⟩ := by
    unfold RAGSystem.queryRespond
    rw [if_pos hg]
  refine ⟨by rw [hresp], by rw [hresp], ?_⟩
  rw [hresp]
  apply stripWS_keeps UTAG
    ⟨'[', "USED_CONTEXT]".toList, by decide, by decide⟩
    ⟨']', "TXETNOC_DESU[".toList, by decide, by decide⟩
  exact removeAll_keeps GTAG UTAG (by decide) (by decide) (by decide) (by decide)
    answer hu

/-- Witness for C10 at a concrete answer carrying both tags. -/
theorem C10_general_knowledge_precedence_witness :
    (RAGSystem.queryRespond "qq".toList
      "[USED_CONTEXT] maybe [GENERAL_KNOWLEDGE]".toList
      [(sampleChunkB, 1)]).sources = [] :=
  (C10_general_knowledge_precedence "qq".toList
    "[USED_CONTEXT] maybe [GENERAL_KNOWLEDGE]".toList
    [(sampleChunkB, 1)] (by decide) (by decide)).1
